import Mathlib

/-!
Verification of the snitch connection-observability engine against its
natural-language specification.  Go code is shallowly embedded: Go strings
become `List Char` (byte-level functions work on `List Nat` of byte values),
Go `int` becomes `Int`, Go maps become association lists inserted in first-key
order (Go map iteration order is unspecified; the association-list order is one
deterministic refinement, and the properties proved below are per-key counts
that do not depend on iteration order).
-/

namespace Snitch

/-- Go strings, viewed as sequences of characters (runes). -/
abbrev GoStr := List Char

/-- Literal helper turning a Lean string literal into the `GoStr` model. -/
def gs (s : String) : GoStr := s.toList

/-- Embedding of `collector.Connection`, restricted to the fields that the
verified claims read: the six identity fields (proto, laddr, lport, raddr,
rport, pid) plus the fields consulted by the interactive session's filter,
search and sort code (process, user, state). -/
structure Connection where
  proto : GoStr
  laddr : GoStr
  lport : Int
  raddr : GoStr
  rport : Int
  pid : Int
  process : GoStr
  user : GoStr
  state : GoStr
deriving DecidableEq, Repr

instance : Inhabited Connection :=
  ⟨{ proto := [], laddr := [], lport := 0, raddr := [], rport := 0, pid := 0,
     process := [], user := [], state := [] }⟩

/-- Character for a single decimal digit, as produced by Go's `%d` verb. -/
def digitChar (d : Nat) : Char := Char.ofNat (48 + d)

/-- Decimal representation of a natural number, as produced by Go's `%d`
verb: most-significant digit first, and `0` prints as `"0"`. -/
def natToDec (n : Nat) : GoStr :=
  if n = 0 then [digitChar 0] else ((Nat.digits 10 n).reverse).map digitChar

/-- Decimal representation of a Go `int` under the `%d` verb: a leading
minus sign for negative values. -/
def intToDec (n : Int) : GoStr :=
  if n < 0 then Char.ofNat 45 :: natToDec n.natAbs else natToDec n.toNat

/-- Embedding of `getConnectionKey` (src/cmd/trace.go): the string
`fmt.Sprintf("%s|%s:%d|%s:%d|%d", proto, laddr, lport, raddr, rport, pid)`. -/
def getConnectionKey (c : Connection) : GoStr :=
  c.proto ++ Char.ofNat 124 :: (c.laddr ++ Char.ofNat 58 :: (intToDec c.lport ++
    Char.ofNat 124 :: (c.raddr ++ Char.ofNat 58 :: (intToDec c.rport ++
    Char.ofNat 124 :: intToDec c.pid))))

/-- Connection used to exhibit that `getConnectionKey` is not injective over
arbitrary field strings: its protocol contains the separator. -/
def keyCexA : Connection :=
  { proto := gs "a|b", laddr := gs "c", lport := 0, raddr := gs "r", rport := 0,
    pid := 0, process := [], user := [], state := [] }

/-- Companion connection for the non-injectivity witness: same key as
`keyCexA` but a different identity tuple. -/
def keyCexB : Connection :=
  { proto := gs "a", laddr := gs "b|c", lport := 0, raddr := gs "r", rport := 0,
    pid := 0, process := [], user := [], state := [] }

/-- Association-list embedding of the Go map `map[string]collector.Connection`
used by `runTraceCommand`: assignment replaces the value when the key is
already present and appends otherwise.  Go map iteration order is
unspecified; this list order is one deterministic refinement of it, and the
diff properties proved below are per-key and order-independent. -/
def mapInsert (m : List (GoStr × Connection)) (k : GoStr) (v : Connection) :
    List (GoStr × Connection) :=
  match m with
  | [] => [(k, v)]
  | (k1, v1) :: rest =>
    if k1 = k then (k1, v) :: rest else (k1, v1) :: mapInsert rest k v

/-- Embedding of the map-building loop in `runTraceCommand`
(src/cmd/trace.go): `newConnectionsMap[getConnectionKey(conn)] = conn` over
the filtered snapshot in order. -/
def buildConnMap (conns : List Connection) : List (GoStr × Connection) :=
  conns.foldl (fun m c => mapInsert m (getConnectionKey c) c) []

/-- Key set of a connection map. -/
def mapKeys (m : List (GoStr × Connection)) : List GoStr := m.map Prod.fst

/-- Lookup in a connection map. -/
def mapGet (m : List (GoStr × Connection)) (k : GoStr) : Option Connection :=
  match m with
  | [] => none
  | (k1, v) :: rest => if k1 = k then some v else mapGet rest k

/-- Kind of a trace event; the Go code stores the strings `"opened"` and
`"closed"` in `TraceEvent.Event`. -/
inductive EventKind
  | opened
  | closed
deriving DecidableEq, Repr

/-- Embedding of `TraceEvent` (src/cmd/trace.go), restricted to the kind and
the carried connection record (the wall-clock timestamp is irrelevant to the
claims). -/
structure TraceEvent where
  kind : EventKind
  conn : Connection
deriving DecidableEq, Repr

/-- Embedding of one poll's diff in `runTraceCommand`: an `opened` event for
every entry of the new map whose key is absent from the baseline, then a
`closed` event for every baseline entry whose key is absent from the new
map, each carrying the corresponding map's stored record. -/
def pollDiff (baseline newMap : List (GoStr × Connection)) : List TraceEvent :=
  (newMap.filter (fun p => decide (p.1 ∉ mapKeys baseline))).map
      (fun p => ⟨EventKind.opened, p.2⟩) ++
    (baseline.filter (fun p => decide (p.1 ∉ mapKeys newMap))).map
      (fun p => ⟨EventKind.closed, p.2⟩)

/-- Embedding of one iteration of the polling loop in `runTraceCommand`: a
failed fetch (`none`) logs and `continue`s, leaving the baseline untouched
and emitting nothing; a successful fetch diffs the filtered snapshot against
the baseline and replaces the baseline with the new map. -/
def pollStep (baseline : List (GoStr × Connection)) (fetch : Option (List Connection)) :
    List (GoStr × Connection) × List TraceEvent :=
  match fetch with
  | none => (baseline, [])
  | some conns => (buildConnMap conns, pollDiff baseline (buildConnMap conns))

/-- Events emitted by the polling loop run without any event budget over a
finite schedule of fetch outcomes (`none` = fetch error). -/
def allTraceEvents (baseline : List (GoStr × Connection)) :
    List (Option (List Connection)) → List TraceEvent
  | [] => []
  | none :: rest => allTraceEvents baseline rest
  | some conns :: rest =>
    pollDiff baseline (buildConnMap conns) ++ allTraceEvents (buildConnMap conns) rest

/-- Embedding of the polling loop of `runTraceCommand` with the event budget:
`budget` is the `--count` flag and `count` the running `eventCount`.  After a
successful poll all of its events are emitted and then
`traceCount > 0 && eventCount >= traceCount` terminates the loop. -/
def runTraceLoop (budget count : Int) (baseline : List (GoStr × Connection)) :
    List (Option (List Connection)) → List TraceEvent
  | [] => []
  | none :: rest => runTraceLoop budget count baseline rest
  | some conns :: rest =>
    let evs := pollDiff baseline (buildConnMap conns)
    if 0 < budget ∧ budget ≤ count + evs.length then evs
    else evs ++ runTraceLoop budget (count + evs.length) (buildConnMap conns) rest

/-- Concrete connection used to instantiate the trace-loop theorems. -/
def traceW : Connection :=
  { proto := gs "tcp", laddr := gs "1.2.3.4", lport := 0, raddr := gs "5.6.7.8",
    rport := 0, pid := 0, process := [], user := [], state := [] }

/-- Embedding of the tui `model` (src/internal/tui/model.go), restricted to
the fields the session-state claims read: the connection snapshot, cursor,
visibility flags, search state, watch set and the transient status
message. -/
structure TuiModel where
  connections : List Connection
  cursor : Int
  showTCP : Bool
  showUDP : Bool
  showListening : Bool
  showEstablished : Bool
  showOther : Bool
  searchQuery : GoStr
  searchActive : Bool
  watchedPIDs : List Int
  statusMessage : GoStr
  statusExpiry : Int
deriving DecidableEq, Repr

/-- Embedding of `containsIgnoreCase` (tui helpers):
`strings.Contains(strings.ToLower(s), strings.ToLower(substr))`. -/
def containsIgnoreCase (s substr : GoStr) : Bool :=
  decide ((substr.map Char.toLower) <:+: (s.map Char.toLower))

/-- Embedding of `model.matchesFilters` (src/internal/tui/model.go). -/
def matchesFilters (m : TuiModel) (c : Connection) : Bool :=
  let isTCP := c.proto == gs "tcp" || c.proto == gs "tcp6"
  let isUDP := c.proto == gs "udp" || c.proto == gs "udp6"
  let isListening := c.state == gs "LISTEN"
  let isEstablished := c.state == gs "ESTABLISHED"
  let isOther := !isListening && !isEstablished
  !(isTCP && !m.showTCP) && (!(isUDP && !m.showUDP) &&
    (!(isListening && !m.showListening) && (!(isEstablished && !m.showEstablished) &&
      !(isOther && !m.showOther))))

/-- Embedding of `model.matchesSearch` (src/internal/tui/model.go). -/
def matchesSearch (m : TuiModel) (c : Connection) : Bool :=
  containsIgnoreCase c.process m.searchQuery ||
    (containsIgnoreCase c.laddr m.searchQuery ||
    (containsIgnoreCase c.raddr m.searchQuery ||
    (containsIgnoreCase c.user m.searchQuery ||
    (containsIgnoreCase c.proto m.searchQuery ||
      containsIgnoreCase c.state m.searchQuery))))

/-- Embedding of `model.isWatched` (src/internal/tui/model.go). -/
def isWatched (m : TuiModel) (pid : Int) : Bool :=
  if pid ≤ 0 then false else m.watchedPIDs.contains pid

/-- Embedding of `model.visibleConnections` (src/internal/tui/model.go):
drop connections failing the visibility flags, drop search misses when a
query is set, and surface watched connections first (the single pass
appending to two lists is a stable partition). -/
def visibleConnections (m : TuiModel) : List Connection :=
  let kept := m.connections.filter
    (fun c => matchesFilters m c && (m.searchQuery == ([] : GoStr) || matchesSearch m c))
  kept.filter (fun c => isWatched m c.pid) ++ kept.filter (fun c => !isWatched m c.pid)

/-- Embedding of `model.clampCursor` (src/internal/tui/model.go): pull the
cursor below the visible length, then up to zero. -/
def clampCursor (m : TuiModel) : TuiModel :=
  let n : Int := ((visibleConnections m).length : Int)
  let c1 : Int := if m.cursor ≥ n then n - 1 else m.cursor
  let c2 : Int := if c1 < 0 then 0 else c1
  { m with cursor := c2 }

/-- Key presses relevant to `handleSearchKey`: the Go code appends
`msg.String()` when it is a single character, so multi-character key names
are collapsed into `other`. -/
inductive SearchKey
  | esc
  | enter
  | backspace
  | char (c : Char)
  | other
deriving DecidableEq, Repr

/-- Embedding of `model.handleSearchKey` (tui key handling). -/
def handleSearchKey (m : TuiModel) (k : SearchKey) : TuiModel :=
  match k with
  | .esc => { m with searchActive := false, searchQuery := [] }
  | .enter => { m with searchActive := false, cursor := 0 }
  | .backspace =>
    if m.searchQuery.length > 0 then { m with searchQuery := m.searchQuery.dropLast } else m
  | .char ch => { m with searchQuery := m.searchQuery ++ [ch] }
  | .other => m

/-- Protocol/state visibility toggle keys of `handleNormalKey`
(`t`, `u`, `l`, `e`, `o`). -/
inductive ToggleKey
  | keyT
  | keyU
  | keyL
  | keyE
  | keyO
deriving DecidableEq, Repr

/-- Embedding of the visibility-toggle branches of `model.handleNormalKey`:
each flips its flag and then calls `clampCursor`. -/
def handleToggleKey (m : TuiModel) (k : ToggleKey) : TuiModel :=
  match k with
  | .keyT => clampCursor { m with showTCP := !m.showTCP }
  | .keyU => clampCursor { m with showUDP := !m.showUDP }
  | .keyL => clampCursor { m with showListening := !m.showListening }
  | .keyE => clampCursor { m with showEstablished := !m.showEstablished }
  | .keyO => clampCursor { m with showOther := !m.showOther }

/-- Cursor invariant asserted by the specification: inside
`[0, len(visible)-1]`, or `0` when the visible list is empty. -/
def cursorInBounds (m : TuiModel) : Prop :=
  (0 ≤ m.cursor ∧ m.cursor < ((visibleConnections m).length : Int)) ∨
    ((visibleConnections m).length = 0 ∧ m.cursor = 0)

instance (m : TuiModel) : Decidable (cursorInBounds m) := by
  unfold cursorInBounds
  infer_instance

/-- Embedding of the `clearStatusMsg` branch of `model.Update`
(src/internal/tui/model.go): the status message is cleared only when
`time.Now().After(m.statusExpiry)`. -/
def applyClearStatus (m : TuiModel) (now : Int) : TuiModel :=
  if m.statusExpiry < now then { m with statusMessage := [] } else m

/-- Session state exhibiting that typing a search character does not
re-clamp the cursor: two connections match the query `a`, the cursor sits
on the second, and the next character narrows the visible list to one. -/
def searchCexModel : TuiModel :=
  { connections :=
      [ { proto := gs "tcp", laddr := gs "1.1.1.1", lport := 1, raddr := gs "2.2.2.2",
          rport := 2, pid := 1, process := gs "aa", user := gs "u", state := gs "LISTEN" },
        { proto := gs "tcp", laddr := gs "3.3.3.3", lport := 3, raddr := gs "4.4.4.4",
          rport := 4, pid := 2, process := gs "ab", user := gs "u", state := gs "LISTEN" } ],
    cursor := 1, showTCP := true, showUDP := true, showListening := true,
    showEstablished := true, showOther := true, searchQuery := gs "a",
    searchActive := true, watchedPIDs := [], statusMessage := [], statusExpiry := 0 }

/-- Session state used to instantiate the status-clear theorem. -/
def statusCexModel : TuiModel :=
  { connections := [], cursor := 0, showTCP := true, showUDP := true,
    showListening := true, showEstablished := true, showOther := true,
    searchQuery := [], searchActive := false, watchedPIDs := [],
    statusMessage := gs "killed nginx (pid 7)", statusExpiry := 5 }

/-- UTF-8 bytes of the ellipsis marker `SymbolEllipsis` (U+2026). -/
def ellipsisBytes : List Nat := [226, 128, 166]

/-- Embedding of `truncate` (tui helpers): Go strings are byte slices, so
`len(s)` and `s[:n]` count and slice raw bytes; the function is modelled on
the byte sequence of the string.  The Go parameter is an `int`, always a
non-negative column width at every call site, modelled as `Nat`. -/
def truncate (s : List Nat) (max : Nat) : List Nat :=
  if s.length ≤ max then s
  else if max ≤ 2 then s.take max
  else s.take (max - 1) ++ ellipsisBytes

/-- Test for a UTF-8 continuation byte (`10xxxxxx`). -/
def isContinuationByte (b : Nat) : Bool := decide (128 ≤ b) && decide (b < 192)

/-- Number of characters a byte sequence decodes to: one per non-continuation
byte (exact for well-formed UTF-8). -/
def charCount (s : List Nat) : Nat :=
  (s.filter (fun b => !isContinuationByte b)).length

/-- UTF-8 bytes of the two-character string made of two copies of U+00E9
(latin small letter e with acute): 2 characters, 2 display columns,
4 bytes. -/
def eeBytes : List Nat := [195, 169, 195, 169]

/-- Parsed IP address in the shape `net.IP` takes after `net.ParseIP`:
either four IPv4 bytes or sixteen IPv6 bytes. -/
inductive IPAddr
  | v4 (a b c d : Nat)
  | v6 (bytes : List Nat)
deriving DecidableEq, Repr

/-- Split a character list on a separator (every separator starts a new
field, so `"::1"` yields three fields, two of them empty). -/
def splitOnChar (sep : Char) : GoStr → List GoStr
  | [] => [[]]
  | c :: rest =>
    let r := splitOnChar sep rest
    if c = sep then [] :: r
    else
      match r with
      | [] => [[c]]
      | h :: t => (c :: h) :: t

/-- Decimal IPv4 field of `net.ParseIP`: 1 to 3 digits, no leading zero,
value at most 255. -/
def parseDecField (s : GoStr) : Option Nat :=
  if s = [] then none
  else if ¬ s.all Char.isDigit then none
  else if 1 < s.length ∧ s.head? = some (Char.ofNat 48) then none
  else
    let v := s.foldl (fun acc c => acc * 10 + (c.toNat - 48)) 0
    if v ≤ 255 then some v else none

/-- Dotted-quad IPv4 parser of `net.ParseIP`. -/
def parseIPv4 (s : GoStr) : Option IPAddr :=
  match (splitOnChar (Char.ofNat 46) s).map parseDecField with
  | [some a, some b, some c, some d] => some (IPAddr.v4 a b c d)
  | _ => none

/-- Hexadecimal digit test for IPv6 groups. -/
def isHexDigitChar (c : Char) : Bool :=
  c.isDigit || (decide (Char.ofNat 97 ≤ c) && decide (c ≤ Char.ofNat 102)) ||
    (decide (Char.ofNat 65 ≤ c) && decide (c ≤ Char.ofNat 70))

/-- Value of a hexadecimal digit. -/
def hexVal (c : Char) : Nat :=
  if c.isDigit then c.toNat - 48
  else if decide (Char.ofNat 97 ≤ c) then c.toNat - 87
  else c.toNat - 55

/-- One IPv6 group: 1 to 4 hexadecimal digits. -/
def parseHexGroup (s : GoStr) : Option Nat :=
  if s = [] then none
  else if ¬ s.all isHexDigitChar then none
  else if 4 < s.length then none
  else some (s.foldl (fun acc c => acc * 16 + hexVal c) 0)

/-- Parse a list of IPv6 group strings, failing if any group fails. -/
def parseGroups : List GoStr → Option (List Nat)
  | [] => some []
  | g :: rest =>
    match parseHexGroup g, parseGroups rest with
    | some v, some vs => some (v :: vs)
    | _, _ => none

/-- Split a field list at its first empty field (the mark left by `::`). -/
def splitAtEmpty : List GoStr → Option (List GoStr × List GoStr)
  | [] => none
  | g :: rest =>
    if g = [] then some ([], rest)
    else
      match splitAtEmpty rest with
      | some (l, r) => some (g :: l, r)
      | none => none

/-- Sixteen address bytes from eight 16-bit groups. -/
def groupsToBytes (gs16 : List Nat) : List Nat :=
  (gs16.map (fun g => [g / 256, g % 256])).flatten

/-- IPv6 parser modelling `net.ParseIP` for colon-separated hexadecimal
addresses, with one optional `::` zero compression (leading, trailing,
interior, or the bare `::`).  Zone markers and embedded dotted-quad tails
are not modelled; no claim exercises them. -/
def parseIPv6 (s : GoStr) : Option IPAddr :=
  let parts := splitOnChar (Char.ofNat 58) s
  let mk : List Nat → List Nat → Option IPAddr := fun left right =>
    if left.length + right.length ≤ 7 then
      some (IPAddr.v6 (groupsToBytes
        (left ++ (List.replicate (8 - left.length - right.length) 0 ++ right))))
    else none
  match splitAtEmpty parts with
  | none =>
    match parseGroups parts with
    | some gs16 => if gs16.length = 8 then some (IPAddr.v6 (groupsToBytes gs16)) else none
    | none => none
  | some (left, right) =>
    if left = [] then
      match right with
      | [] => none
      | [] :: right2 =>
        if right2 = [[]] then mk [] []
        else
          match parseGroups right2 with
          | some rgs => mk [] rgs
          | none => none
      | _ => none
    else
      match parseGroups left with
      | none => none
      | some lgs =>
        match right with
        | [] => none
        | [[]] => mk lgs []
        | _ =>
          match parseGroups right with
          | some rgs => mk lgs rgs
          | none => none

/-- First `'.'` or `':'` in the string decides the family, exactly as the
scan at the top of `net.ParseIP` does. -/
def firstSpecial : GoStr → Option Char
  | [] => none
  | c :: rest =>
    if c = Char.ofNat 46 ∨ c = Char.ofNat 58 then some c else firstSpecial rest

/-- Model of `net.ParseIP` as used by `IsLocalOrPrivate`. -/
def parseIP (s : GoStr) : Option IPAddr :=
  match firstSpecial s with
  | some c => if c = Char.ofNat 46 then parseIPv4 s else parseIPv6 s
  | none => none

/-- Model of `net.IP.IsLoopback`. -/
def isLoopback : IPAddr → Bool
  | .v4 a _ _ _ => a == 127
  | .v6 bs => bs == [0, 0, 0, 0, 0, 0, 0, 0, 0, 0, 0, 0, 0, 0, 0, 1]

/-- Model of `net.IP.IsLinkLocalUnicast` (169.254.0.0/16, fe80::/10). -/
def isLinkLocalUnicast : IPAddr → Bool
  | .v4 a b _ _ => a == 169 && b == 254
  | .v6 bs =>
    match bs with
    | b0 :: b1 :: _ => b0 == 254 && b1 / 64 == 2
    | _ => false

/-- Model of `net.IP.IsLinkLocalMulticast` (224.0.0.0/24, ff02::/16). -/
def isLinkLocalMulticast : IPAddr → Bool
  | .v4 a b c _ => a == 224 && b == 0 && c == 0
  | .v6 bs =>
    match bs with
    | b0 :: b1 :: _ => b0 == 255 && b1 % 16 == 2
    | _ => false

/-- Model of `net.IP.IsUnspecified`. -/
def isUnspecified : IPAddr → Bool
  | .v4 a b c d => a == 0 && b == 0 && c == 0 && d == 0
  | .v6 bs => bs == List.replicate 16 0

/-- Model of `net.IP.IsPrivate` (RFC 1918 for IPv4, RFC 4193 for IPv6). -/
def isPrivate : IPAddr → Bool
  | .v4 a b _ _ =>
    a == 10 || (a == 172 && (decide (16 ≤ b) && decide (b ≤ 31))) ||
      (a == 192 && b == 168)
  | .v6 bs =>
    match bs with
    | b0 :: _ => b0 == 252 || b0 == 253
    | _ => false

/-- Model of the carrier-grade-NAT check in `IsLocalOrPrivate`: the 4-byte
net 100.64.0.0/10 contains only IPv4 addresses. -/
def inCGNAT : IPAddr → Bool
  | .v4 a b _ _ => a == 100 && (decide (64 ≤ b) && decide (b ≤ 127))
  | .v6 _ => false

/-- Embedding of `IsLocalOrPrivate` (src/internal/geoip): an unparsable
string is treated as local, then loopback, link-local, unspecified, private
and carrier-grade-NAT ranges are tested in order. -/
def IsLocalOrPrivate (s : GoStr) : Bool :=
  match parseIP s with
  | none => true
  | some ip =>
    isLoopback ip || isLinkLocalUnicast ip || isLinkLocalMulticast ip ||
      isUnspecified ip || isPrivate ip || inCGNAT ip

/-- Geolocation record of the geoip package. -/
structure IPInfo where
  countryCode : GoStr
  org : GoStr
deriving DecidableEq, Repr

/-- The empty `IPInfo` returned for local, private or failed lookups. -/
def emptyIPInfo : IPInfo := ⟨[], []⟩

/-- Lookup in the geoip cache. -/
def geoCacheGet (cache : List (GoStr × IPInfo)) (k : GoStr) : Option IPInfo :=
  match cache with
  | [] => none
  | (k1, v) :: rest => if k1 = k then some v else geoCacheGet rest k

/-- Embedding of `GetIPInfo` (src/internal/geoip): result, updated cache,
and whether the lookup service was invoked.  The lookup service is passed
as a function, standing for the swappable `LookupService`. -/
def GetIPInfo (svc : GoStr → IPInfo) (ip : GoStr) (cache : List (GoStr × IPInfo)) :
    IPInfo × List (GoStr × IPInfo) × Bool :=
  if ip = [] ∨ ip = [Char.ofNat 42] then (emptyIPInfo, cache, false)
  else if IsLocalOrPrivate ip then (emptyIPInfo, cache, false)
  else
    match geoCacheGet cache ip with
    | some info => (info, cache, false)
    | none => (svc ip, cache ++ [(ip, svc ip)], true)

/-- Modelled from the spec: sort field selector of `collector.SortOptions`
(the collector package's sorting source is not among the provided files,
only its callers in src/internal/tui/model.go and src/cmd/top.go). -/
inductive SortField
  | byLport
  | byProcess
  | byPID
  | byState
  | byProto
deriving DecidableEq, Repr

/-- Modelled from the spec: sort direction of `collector.SortOptions`. -/
inductive SortDirection
  | asc
  | desc
deriving DecidableEq, Repr

/-- Modelled from the spec: `collector.SortOptions` — a field selector plus
a direction. -/
structure SortOptions where
  field : SortField
  direction : SortDirection
deriving DecidableEq, Repr

/-- Comparison on the selected sort key (string fields compare
lexicographically, numeric fields numerically). -/
def keyLE (f : SortField) (a b : Connection) : Prop :=
  match f with
  | .byLport => a.lport ≤ b.lport
  | .byProcess => a.process ≤ b.process
  | .byPID => a.pid ≤ b.pid
  | .byState => a.state ≤ b.state
  | .byProto => a.proto ≤ b.proto

instance keyLE_decidable (f : SortField) : DecidableRel (keyLE f) := fun a b => by
  cases f <;> (unfold keyLE; infer_instance)

/-- Comparator used by the sort: direction flips the total order only, not
the tie-break order (ties are resolved by stability). -/
def connLE (o : SortOptions) (a b : Connection) : Prop :=
  match o.direction with
  | .asc => keyLE o.field a b
  | .desc => keyLE o.field b a

instance connLE_decidable (o : SortOptions) : DecidableRel (connLE o) := fun a b => by
  unfold connLE
  cases o.direction <;> infer_instance

/-- Modelled from the spec: `collector.SortConnections`, a stable sort of
the connection list by the selected field and direction (spec section 4.2
requires stability; insertion sort realises it). -/
def SortConnections (conns : List Connection) (o : SortOptions) : List Connection :=
  List.insertionSort (connLE o) conns

/-- Equality of the selected sort key. -/
def sameKey (f : SortField) (a b : Connection) : Bool :=
  match f with
  | .byLport => a.lport == b.lport
  | .byProcess => a.process == b.process
  | .byPID => a.pid == b.pid
  | .byState => a.state == b.state
  | .byProto => a.proto == b.proto

/-- One occurrence of `a` strictly before one occurrence of `b` in a
list. -/
def precedesIn (a b : Connection) (l : List Connection) : Prop :=
  ∃ i j : Nat, i < j ∧ l[i]? = some a ∧ l[j]? = some b

instance connLE_total (o : SortOptions) : IsTotal Connection (connLE o) :=
  ⟨fun a b => by
    unfold connLE keyLE
    cases o.direction <;> cases o.field <;> simp <;> exact le_total _ _⟩

instance connLE_trans (o : SortOptions) : IsTrans Connection (connLE o) :=
  ⟨fun a b c => by
    unfold connLE keyLE
    cases o.direction <;> cases o.field <;> simp <;>
      first
        | exact fun h1 h2 => le_trans h1 h2
        | exact fun h1 h2 => le_trans h2 h1⟩

/-- Connections with distinct local ports, used to instantiate the sorting
theorem. -/
def sortWA : Connection :=
  { proto := gs "tcp", laddr := gs "0.0.0.0", lport := 1, raddr := [], rport := 0,
    pid := 3, process := gs "nginx", user := gs "root", state := gs "LISTEN" }

/-- Companion connection with a larger local port. -/
def sortWB : Connection :=
  { proto := gs "tcp", laddr := gs "0.0.0.0", lport := 2, raddr := [], rport := 0,
    pid := 4, process := gs "sshd", user := gs "root", state := gs "LISTEN" }

/-! Injectivity machinery for the decimal encodings. -/

theorem digitChar_inj {d1 d2 : Nat} (h1 : d1 < 10) (h2 : d2 < 10)
    (h : digitChar d1 = digitChar d2) : d1 = d2 := by
  interval_cases d1 <;> interval_cases d2 <;> first | rfl | (exact absurd h (by decide))

theorem map_digitChar_inj : ∀ {l1 l2 : List Nat}, (∀ d ∈ l1, d < 10) →
    (∀ d ∈ l2, d < 10) → l1.map digitChar = l2.map digitChar → l1 = l2 := by
  intro l1
  induction l1 with
  | nil => intro l2 _ _ h; cases l2 <;> simp_all
  | cons a l ih =>
    intro l2 h1 h2 h
    cases l2 with
    | nil => simp_all
    | cons b l2 =>
      simp only [List.map_cons, List.cons.injEq] at h
      have ha : a = b := digitChar_inj (h1 a (by simp)) (h2 b (by simp)) h.1
      have := ih (fun d hd => h1 d (by simp [hd])) (fun d hd => h2 d (by simp [hd])) h.2
      simp [ha, this]

theorem natToDec_eq_zeroStr {n : Nat} (h : natToDec n = [digitChar 0]) : n = 0 := by
  by_contra hn
  unfold natToDec at h
  rw [if_neg hn] at h
  have hlen : (Nat.digits 10 n).length = 1 := by
    have := congrArg List.length h
    simpa using this
  obtain ⟨d, hdig⟩ : ∃ d, Nat.digits 10 n = [d] := by
    cases hd : Nat.digits 10 n with
    | nil => rw [hd] at hlen; simp at hlen
    | cons x xs =>
      rw [hd] at hlen
      simp at hlen
      exact ⟨x, by simp [hd, hlen]⟩
  rw [hdig] at h
  simp only [List.reverse_cons, List.reverse_nil, List.nil_append, List.map_cons,
    List.map_nil, List.cons.injEq, and_true] at h
  have hdlt : d < 10 :=
    Nat.digits_lt_base (by norm_num) (by rw [hdig]; exact List.mem_singleton.mpr rfl)
  have hd0 : d = 0 := digitChar_inj hdlt (by norm_num) h
  have hofd := Nat.ofDigits_digits 10 n
  rw [hdig, hd0] at hofd
  simp [Nat.ofDigits] at hofd
  exact hn hofd.symm

theorem natToDec_inj : ∀ {m n : Nat}, natToDec m = natToDec n → m = n := by
  intro m n h
  by_cases hm : m = 0 <;> by_cases hn : n = 0
  · omega
  · exfalso
    rw [hm] at h
    have : natToDec n = [digitChar 0] := by rw [← h]; rfl
    exact hn (natToDec_eq_zeroStr this)
  · exfalso
    rw [hn] at h
    have : natToDec m = [digitChar 0] := by rw [h]; rfl
    exact hm (natToDec_eq_zeroStr this)
  · unfold natToDec at h
    rw [if_neg hm, if_neg hn] at h
    have hrev := map_digitChar_inj
      (fun d hd => Nat.digits_lt_base (by norm_num) (List.mem_reverse.mp hd))
      (fun d hd => Nat.digits_lt_base (by norm_num) (List.mem_reverse.mp hd)) h
    have := congrArg List.reverse hrev
    simp only [List.reverse_reverse] at this
    exact Nat.digits_inj_iff.mp this

theorem natToDec_ne_nil (n : Nat) : natToDec n ≠ [] := by
  unfold natToDec
  by_cases h : n = 0
  · simp [h]
  · simp only [h, if_false, ne_eq, List.map_eq_nil_iff, List.reverse_eq_nil_iff]
    exact Nat.digits_ne_nil_iff_ne_zero.mpr h

theorem digitChar_ne_of_lt {d : Nat} (h : d < 10) :
    digitChar d ≠ Char.ofNat 124 ∧ digitChar d ≠ Char.ofNat 58 ∧
      digitChar d ≠ Char.ofNat 45 := by
  interval_cases d <;> exact ⟨by decide, by decide, by decide⟩

theorem natToDec_mem_lt {c : Char} {n : Nat} (h : c ∈ natToDec n) :
    c ≠ Char.ofNat 124 ∧ c ≠ Char.ofNat 58 ∧ c ≠ Char.ofNat 45 := by
  unfold natToDec at h
  by_cases hn : n = 0
  · simp [hn] at h
    exact h ▸ digitChar_ne_of_lt (by norm_num)
  · simp only [hn, if_false, List.mem_map, List.mem_reverse] at h
    obtain ⟨d, hd, rfl⟩ := h
    exact digitChar_ne_of_lt (Nat.digits_lt_base (by norm_num) hd)

theorem intToDec_mem_ne {c : Char} {n : Int} (h : c ∈ intToDec n) :
    c ≠ Char.ofNat 124 ∧ c ≠ Char.ofNat 58 := by
  unfold intToDec at h
  by_cases hn : n < 0
  · simp only [hn, if_true, List.mem_cons] at h
    rcases h with h | h
    · exact h ▸ ⟨by decide, by decide⟩
    · exact ⟨(natToDec_mem_lt h).1, (natToDec_mem_lt h).2.1⟩
  · simp only [hn, if_false] at h
    exact ⟨(natToDec_mem_lt h).1, (natToDec_mem_lt h).2.1⟩

theorem intToDec_inj : ∀ {m n : Int}, intToDec m = intToDec n → m = n := by
  intro m n h
  unfold intToDec at h
  by_cases hm : m < 0 <;> by_cases hn : n < 0 <;> simp [hm, hn] at h
  · have := natToDec_inj h
    omega
  · exfalso
    have hmem : Char.ofNat 45 ∈ natToDec n.toNat := by rw [← h]; simp
    exact (natToDec_mem_lt hmem).2.2 rfl
  · exfalso
    have hmem : Char.ofNat 45 ∈ natToDec m.toNat := by rw [h]; simp
    exact (natToDec_mem_lt hmem).2.2 rfl
  · have := natToDec_inj h
    omega

/-! Unique-splitting lemmas for separator characters. -/

theorem append_sep_inj_left {α : Type} {a1 a2 b1 b2 : List α} {s : α}
    (h1 : s ∉ a1) (h2 : s ∉ a2) (h : a1 ++ s :: b1 = a2 ++ s :: b2) :
    a1 = a2 ∧ b1 = b2 := by
  induction a1 generalizing a2 with
  | nil =>
    cases a2 with
    | nil => simpa using h
    | cons y ys =>
      exfalso
      simp only [List.nil_append, List.cons_append, List.cons.injEq] at h
      exact h2 (by simp [h.1])
  | cons x xs ih =>
    cases a2 with
    | nil =>
      exfalso
      simp only [List.cons_append, List.nil_append, List.cons.injEq] at h
      exact h1 (by simp [h.1])
    | cons y ys =>
      simp only [List.cons_append, List.cons.injEq] at h
      have := ih (fun hm => h1 (by simp [hm])) (fun hm => h2 (by simp [hm])) h.2
      exact ⟨by simp [h.1, this.1], this.2⟩

theorem append_sep_inj_right {α : Type} {a1 a2 b1 b2 : List α} {s : α}
    (h1 : s ∉ b1) (h2 : s ∉ b2) (h : a1 ++ s :: b1 = a2 ++ s :: b2) :
    a1 = a2 ∧ b1 = b2 := by
  have hrev : b1.reverse ++ s :: a1.reverse = b2.reverse ++ s :: a2.reverse := by
    have := congrArg List.reverse h
    simpa [List.reverse_append, List.append_assoc] using this
  have := append_sep_inj_left (fun hm => h1 (List.mem_reverse.mp hm))
    (fun hm => h2 (List.mem_reverse.mp hm)) hrev
  constructor
  · have := congrArg List.reverse this.2
    simpa using this
  · have := congrArg List.reverse this.1
    simpa using this

/-- Middle portion `addr ++ ":" ++ decimal` of the key contains no pipe
character when the address does not. -/
theorem addrPort_no_pipe {addr : GoStr} {n : Int} (h : Char.ofNat 124 ∉ addr) :
    Char.ofNat 124 ∉ addr ++ Char.ofNat 58 :: intToDec n := by
  intro hm
  rcases List.mem_append.mp hm with hm | hm
  · exact h hm
  · rcases List.mem_cons.mp hm with hm | hm
    · exact absurd hm.symm (by decide)
    · exact (intToDec_mem_ne hm).1 rfl

/-- Splitting `addr1 ++ ":" ++ dec n1 = addr2 ++ ":" ++ dec n2` at the last
colon: the decimal part never contains a colon. -/
theorem addrPort_inj {addr1 addr2 : GoStr} {n1 n2 : Int}
    (h : addr1 ++ Char.ofNat 58 :: intToDec n1 = addr2 ++ Char.ofNat 58 :: intToDec n2) :
    addr1 = addr2 ∧ n1 = n2 := by
  have := append_sep_inj_right (s := Char.ofNat 58)
    (fun hm => (intToDec_mem_ne hm).2 rfl) (fun hm => (intToDec_mem_ne hm).2 rfl) h
  exact ⟨this.1, intToDec_inj this.2⟩

/-- Claim C6, amended: `getConnectionKey` is injective on the identity tuple
provided the string-valued identity fields contain no `'|'` separator
character (true of every real protocol token and IP address). -/
theorem getConnectionKey_inj_of_no_pipe (c1 c2 : Connection)
    (hp1 : Char.ofNat 124 ∉ c1.proto) (hl1 : Char.ofNat 124 ∉ c1.laddr)
    (hr1 : Char.ofNat 124 ∉ c1.raddr)
    (hp2 : Char.ofNat 124 ∉ c2.proto) (hl2 : Char.ofNat 124 ∉ c2.laddr)
    (hr2 : Char.ofNat 124 ∉ c2.raddr) :
    getConnectionKey c1 = getConnectionKey c2 ↔
      (c1.proto = c2.proto ∧ c1.laddr = c2.laddr ∧ c1.lport = c2.lport ∧
        c1.raddr = c2.raddr ∧ c1.rport = c2.rport ∧ c1.pid = c2.pid) := by
  constructor
  · intro h
    unfold getConnectionKey at h
    have step1 := append_sep_inj_left hp1 hp2 h
    have hassoc1 : ∀ (a : GoStr) (n : Int) (t : GoStr),
        a ++ Char.ofNat 58 :: (intToDec n ++ Char.ofNat 124 :: t) =
          (a ++ Char.ofNat 58 :: intToDec n) ++ Char.ofNat 124 :: t := by
      intro a n t
      simp [List.append_assoc]
    rw [hassoc1 c1.laddr c1.lport, hassoc1 c2.laddr c2.lport] at step1
    have step2 := append_sep_inj_left (addrPort_no_pipe hl1) (addrPort_no_pipe hl2) step1.2
    have hlp := addrPort_inj step2.1
    rw [hassoc1 c1.raddr c1.rport, hassoc1 c2.raddr c2.rport] at step2
    have step3 := append_sep_inj_left (addrPort_no_pipe hr1) (addrPort_no_pipe hr2) step2.2
    have hrp := addrPort_inj step3.1
    exact ⟨step1.1, hlp.1, hlp.2, hrp.1, hrp.2, intToDec_inj step3.2⟩
  · intro h
    unfold getConnectionKey
    rw [h.1, h.2.1, h.2.2.1, h.2.2.2.1, h.2.2.2.2.1, h.2.2.2.2.2]

/-- Claim C6, counterexample: the key encoding is not injective over the raw
field strings — a `'|'` inside the protocol field collides with a `'|'`
inside the local address field, so two connections with different identity
tuples share one key. -/
theorem getConnectionKey_not_injective :
    getConnectionKey keyCexA = getConnectionKey keyCexB ∧ keyCexA.proto ≠ keyCexB.proto := by
  decide

/-- Witness for the amended C6 theorem at two concrete pipe-free
connections. -/
theorem getConnectionKey_inj_witness :
    getConnectionKey
        { proto := gs "tcp", laddr := gs "127.0.0.1", lport := 80, raddr := gs "10.0.0.2",
          rport := 443, pid := 0, process := [], user := [], state := [] } =
      getConnectionKey
        { proto := gs "tcp", laddr := gs "127.0.0.1", lport := 80, raddr := gs "10.0.0.2",
          rport := 443, pid := 0, process := [], user := [], state := [] } ↔
      (gs "tcp" = gs "tcp" ∧ gs "127.0.0.1" = gs "127.0.0.1" ∧ (80 : Int) = 80 ∧
        gs "10.0.0.2" = gs "10.0.0.2" ∧ (443 : Int) = 443 ∧ (0 : Int) = 0) :=
  getConnectionKey_inj_of_no_pipe _ _ (by decide) (by decide) (by decide) (by decide)
    (by decide) (by decide)

/-! Association-list map lemmas. -/

theorem mapKeys_mapInsert (m : List (GoStr × Connection)) (k : GoStr) (v : Connection) :
    mapKeys (mapInsert m k v) =
      if k ∈ mapKeys m then mapKeys m else mapKeys m ++ [k] := by
  induction m with
  | nil => simp [mapInsert, mapKeys]
  | cons p rest ih =>
    obtain ⟨k1, v1⟩ := p
    by_cases hk : k1 = k
    · simp [mapInsert, hk, mapKeys]
    · have hne : ¬ k = k1 := fun h => hk h.symm
      simp only [mapInsert, if_neg hk, mapKeys, List.map_cons] at ih ⊢
      rw [ih]
      by_cases hmem : k ∈ List.map Prod.fst rest <;>
        simp [mapKeys, hmem, hne, List.mem_cons]

theorem nodup_keys_mapInsert {m : List (GoStr × Connection)} (k : GoStr) (v : Connection)
    (h : (mapKeys m).Nodup) : (mapKeys (mapInsert m k v)).Nodup := by
  rw [mapKeys_mapInsert]
  by_cases hmem : k ∈ mapKeys m
  · simpa [hmem] using h
  · simp only [hmem, if_false]
    simpa [List.nodup_append] using ⟨h, hmem⟩

theorem nodup_keys_buildConnMap (conns : List Connection) :
    (mapKeys (buildConnMap conns)).Nodup := by
  suffices hgen : ∀ (m : List (GoStr × Connection)), (mapKeys m).Nodup →
      (mapKeys (conns.foldl (fun m c => mapInsert m (getConnectionKey c) c) m)).Nodup by
    exact hgen [] (by simp [mapKeys])
  induction conns with
  | nil => intro m hm; simpa using hm
  | cons c rest ih =>
    intro m hm
    exact ih _ (nodup_keys_mapInsert _ _ hm)

theorem mem_mapInsert {p : GoStr × Connection} {m : List (GoStr × Connection)}
    {k : GoStr} {v : Connection} (h : p ∈ mapInsert m k v) : p ∈ m ∨ p = (k, v) := by
  induction m with
  | nil => simpa [mapInsert] using h
  | cons q rest ih =>
    obtain ⟨k1, v1⟩ := q
    by_cases hk : k1 = k
    · simp only [mapInsert, if_pos hk] at h
      rcases List.mem_cons.mp h with h | h
      · exact Or.inr (by simp [h, hk])
      · exact Or.inl (List.mem_cons.mpr (Or.inr h))
    · simp only [mapInsert, if_neg hk] at h
      rcases List.mem_cons.mp h with h | h
      · exact Or.inl (List.mem_cons.mpr (Or.inl h))
      · rcases ih h with h | h
        · exact Or.inl (List.mem_cons.mpr (Or.inr h))
        · exact Or.inr h

theorem key_eq_of_mem_foldl :
    ∀ (conns : List Connection) (m : List (GoStr × Connection)),
      (∀ q ∈ m, getConnectionKey q.2 = q.1) →
      ∀ q ∈ conns.foldl (fun m c => mapInsert m (getConnectionKey c) c) m,
        getConnectionKey q.2 = q.1 := by
  intro conns
  induction conns with
  | nil => intro m hm q hq; exact hm q hq
  | cons c rest ih =>
    intro m hm q hq
    simp only [List.foldl_cons] at hq
    refine ih (mapInsert m (getConnectionKey c) c) (fun q2 hq2 => ?_) q hq
    rcases mem_mapInsert hq2 with h2 | h2
    · exact hm q2 h2
    · simp [h2]

theorem key_eq_of_mem_buildConnMap {conns : List Connection} {p : GoStr × Connection}
    (h : p ∈ buildConnMap conns) : getConnectionKey p.2 = p.1 :=
  key_eq_of_mem_foldl conns [] (by simp) p h

theorem filter_key_of_not_mem {m : List (GoStr × Connection)} {k : GoStr}
    (h : k ∉ mapKeys m) : m.filter (fun p => decide (p.1 = k)) = [] := by
  induction m with
  | nil => rfl
  | cons p rest ih =>
    obtain ⟨k1, v1⟩ := p
    have hk1 : ¬ k1 = k := fun he => h (by simp [mapKeys, he])
    have hrest : k ∉ mapKeys rest := fun he => h (by simp [mapKeys] at he ⊢; exact Or.inr he)
    simp [List.filter_cons, hk1, ih hrest]

theorem filter_key_of_mem {m : List (GoStr × Connection)} {k : GoStr}
    (hn : (mapKeys m).Nodup) (h : k ∈ mapKeys m) :
    ∃ v, mapGet m k = some v ∧ m.filter (fun p => decide (p.1 = k)) = [(k, v)] := by
  induction m with
  | nil => simp [mapKeys] at h
  | cons p rest ih =>
    obtain ⟨k1, v1⟩ := p
    by_cases hk : k1 = k
    · subst hk

      have hrest : k1 ∉ mapKeys rest := by
        simp only [mapKeys, List.map_cons, List.nodup_cons] at hn
        exact hn.1
      refine ⟨v1, ?_, ?_⟩
      · simp [mapGet]
      · simp [List.filter_cons, filter_key_of_not_mem hrest]
    · have hmem : k ∈ mapKeys rest := by
        simp only [mapKeys, List.map_cons, List.mem_cons] at h
        rcases h with h | h
        · exact absurd h.symm hk
        · exact h
      have hnr : (mapKeys rest).Nodup := by
        simp only [mapKeys, List.map_cons, List.nodup_cons] at hn
        exact hn.2
      obtain ⟨v, hget, hfil⟩ := ih hnr hmem
      refine ⟨v, ?_, ?_⟩
      · simp [mapGet, hk, hget]
      · simp [List.filter_cons, hk, hfil]

/-! Per-key behaviour of one poll's diff. -/

theorem pollDiff_filter_opened {b nm : List (GoStr × Connection)}
    (hnodup : (mapKeys nm).Nodup) (hkey : ∀ p ∈ nm, getConnectionKey p.2 = p.1)
    {k : GoStr} (hmem : k ∈ mapKeys nm) (hnot : k ∉ mapKeys b) :
    ∃ v, mapGet nm k = some v ∧
      (pollDiff b nm).filter
          (fun e => decide (e.kind = EventKind.opened ∧ getConnectionKey e.conn = k)) =
        [⟨EventKind.opened, v⟩] := by
  obtain ⟨v, hget, hfil⟩ := filter_key_of_mem hnodup hmem
  refine ⟨v, hget, ?_⟩
  unfold pollDiff
  rw [List.filter_append]
  have hclosed : (((b.filter (fun p => decide (p.1 ∉ mapKeys nm))).map
      (fun p => TraceEvent.mk EventKind.closed p.2)).filter
        (fun e => decide (e.kind = EventKind.opened ∧ getConnectionKey e.conn = k))) = [] := by
    refine List.filter_eq_nil_iff.mpr ?_
    intro e he
    obtain ⟨p, _, rfl⟩ := List.mem_map.mp he
    simp
  rw [hclosed, List.append_nil, List.filter_map]
  have hcongr : (nm.filter (fun p => decide (p.1 ∉ mapKeys b))).filter
      ((fun e => decide (e.kind = EventKind.opened ∧ getConnectionKey e.conn = k)) ∘
        (fun p => TraceEvent.mk EventKind.opened p.2)) =
      (nm.filter (fun p => decide (p.1 ∉ mapKeys b))).filter
        (fun p => decide (getConnectionKey p.2 = k)) := by
    refine List.filter_congr ?_
    intro p _
    simp
  rw [hcongr, List.filter_filter]
  have hpt : nm.filter
      (fun p => decide (getConnectionKey p.2 = k) && decide (p.1 ∉ mapKeys b)) =
      nm.filter (fun p => decide (p.1 = k)) := by
    refine List.filter_congr ?_
    intro p hp
    have hk := hkey p hp
    by_cases hpk : p.1 = k
    · simp [hpk, hk, hnot]
    · have : ¬ getConnectionKey p.2 = k := by rw [hk]; exact hpk
      simp [hpk, this]
  rw [hpt, hfil]
  rfl

theorem pollDiff_filter_closed {b nm : List (GoStr × Connection)}
    (hnodup : (mapKeys b).Nodup) (hkey : ∀ p ∈ b, getConnectionKey p.2 = p.1)
    {k : GoStr} (hmem : k ∈ mapKeys b) (hnot : k ∉ mapKeys nm) :
    ∃ v, mapGet b k = some v ∧
      (pollDiff b nm).filter
          (fun e => decide (e.kind = EventKind.closed ∧ getConnectionKey e.conn = k)) =
        [⟨EventKind.closed, v⟩] := by
  obtain ⟨v, hget, hfil⟩ := filter_key_of_mem hnodup hmem
  refine ⟨v, hget, ?_⟩
  unfold pollDiff
  rw [List.filter_append]
  have hopened : (((nm.filter (fun p => decide (p.1 ∉ mapKeys b))).map
      (fun p => TraceEvent.mk EventKind.opened p.2)).filter
        (fun e => decide (e.kind = EventKind.closed ∧ getConnectionKey e.conn = k))) = [] := by
    refine List.filter_eq_nil_iff.mpr ?_
    intro e he
    obtain ⟨p, _, rfl⟩ := List.mem_map.mp he
    simp
  rw [hopened, List.nil_append, List.filter_map]
  have hcongr : (b.filter (fun p => decide (p.1 ∉ mapKeys nm))).filter
      ((fun e => decide (e.kind = EventKind.closed ∧ getConnectionKey e.conn = k)) ∘
        (fun p => TraceEvent.mk EventKind.closed p.2)) =
      (b.filter (fun p => decide (p.1 ∉ mapKeys nm))).filter
        (fun p => decide (getConnectionKey p.2 = k)) := by
    refine List.filter_congr ?_
    intro p _
    simp
  rw [hcongr, List.filter_filter]
  have hpt : b.filter
      (fun p => decide (getConnectionKey p.2 = k) && decide (p.1 ∉ mapKeys nm)) =
      b.filter (fun p => decide (p.1 = k)) := by
    refine List.filter_congr ?_
    intro p hp
    have hk := hkey p hp
    by_cases hpk : p.1 = k
    · simp [hpk, hk, hnot]
    · have : ¬ getConnectionKey p.2 = k := by rw [hk]; exact hpk
      simp [hpk, this]
  rw [hpt, hfil]
  rfl

theorem pollDiff_self (m : List (GoStr × Connection)) : pollDiff m m = [] := by
  unfold pollDiff
  have h : m.filter (fun p => decide (p.1 ∉ mapKeys m)) = [] := by
    refine List.filter_eq_nil_iff.mpr ?_
    intro p hp
    have hm : p.1 ∈ mapKeys m := List.mem_map.mpr ⟨p, hp, rfl⟩
    simp [hm]
  rw [h]
  simp

/-- Claim C1: after a pair of consecutive successfully fetched and filtered
snapshots, the poll emits exactly one `opened` event per identity key that is
new (carrying the new snapshot's stored record), exactly one `closed` event
per identity key that disappeared (carrying the baseline's last-known
record), no events at all when the two snapshots are identical, and the
baseline is replaced by the new key map regardless of event count. -/
theorem trace_poll_diff_events (prev next : List Connection) :
    (∀ k, k ∈ mapKeys (buildConnMap next) → k ∉ mapKeys (buildConnMap prev) →
      ∃ v, mapGet (buildConnMap next) k = some v ∧
        (pollDiff (buildConnMap prev) (buildConnMap next)).filter
            (fun e => decide (e.kind = EventKind.opened ∧ getConnectionKey e.conn = k)) =
          [⟨EventKind.opened, v⟩]) ∧
    (∀ k, k ∈ mapKeys (buildConnMap prev) → k ∉ mapKeys (buildConnMap next) →
      ∃ v, mapGet (buildConnMap prev) k = some v ∧
        (pollDiff (buildConnMap prev) (buildConnMap next)).filter
            (fun e => decide (e.kind = EventKind.closed ∧ getConnectionKey e.conn = k)) =
          [⟨EventKind.closed, v⟩]) ∧
    pollDiff (buildConnMap prev) (buildConnMap prev) = [] ∧
    (pollStep (buildConnMap prev) (some next)).1 = buildConnMap next := by
  refine ⟨?_, ?_, pollDiff_self _, rfl⟩
  · intro k hmem hnot
    exact pollDiff_filter_opened (nodup_keys_buildConnMap next)
      (fun p hp => key_eq_of_mem_buildConnMap hp) hmem hnot
  · intro k hmem hnot
    exact pollDiff_filter_closed (nodup_keys_buildConnMap prev)
      (fun p hp => key_eq_of_mem_buildConnMap hp) hmem hnot

/-- Witness for claim C1's theorem: a baseline built from an empty snapshot
followed by a one-connection snapshot yields exactly one `opened` event. -/
theorem trace_poll_diff_events_witness :
    ∃ v, mapGet (buildConnMap [traceW]) (getConnectionKey traceW) = some v ∧
      (pollDiff (buildConnMap []) (buildConnMap [traceW])).filter
          (fun e => decide (e.kind = EventKind.opened ∧
            getConnectionKey e.conn = getConnectionKey traceW)) =
        [⟨EventKind.opened, v⟩] :=
  (trace_poll_diff_events [] [traceW]).1 (getConnectionKey traceW) (by decide) (by decide)

/-- Claim C8: a failed snapshot fetch emits no events and leaves the baseline
unchanged, so the next tick diffs against the same baseline; the baseline is
replaced only on a successful fetch. -/
theorem trace_fetch_failure_keeps_baseline (b : List (GoStr × Connection))
    (budget count : Int) (rest : List (Option (List Connection))) :
    pollStep b none = (b, []) ∧
    runTraceLoop budget count b (none :: rest) = runTraceLoop budget count b rest ∧
    (∀ conns, (pollStep b (some conns)).1 = buildConnMap conns) :=
  ⟨rfl, rfl, fun _ => rfl⟩

theorem runTraceLoop_nonpos_budget {budget : Int} (hb : budget ≤ 0) :
    ∀ (polls : List (Option (List Connection))) (count : Int)
      (b : List (GoStr × Connection)),
      runTraceLoop budget count b polls = allTraceEvents b polls := by
  intro polls
  induction polls with
  | nil => intro count b; rfl
  | cons x rest ih =>
    intro count b
    match x with
    | none => simp only [runTraceLoop, allTraceEvents]; exact ih count b
    | some conns =>
      simp only [runTraceLoop, allTraceEvents]
      rw [if_neg (by omega)]
      rw [ih]

theorem runTraceLoop_budget_reached {budget : Int} (hb : 0 < budget) :
    ∀ (polls : List (Option (List Connection))) (count : Int)
      (b : List (GoStr × Connection)), count < budget →
      (count + ((allTraceEvents b polls).length : Int) < budget ∧
          runTraceLoop budget count b polls = allTraceEvents b polls) ∨
        (∃ p x q, polls = p ++ some x :: q ∧
          runTraceLoop budget count b polls = allTraceEvents b (p ++ [some x]) ∧
          budget ≤ count + ((allTraceEvents b (p ++ [some x])).length : Int) ∧
          count + ((allTraceEvents b p).length : Int) < budget) := by
  intro polls
  induction polls with
  | nil =>
    intro count b hcount
    left
    exact ⟨by simpa [allTraceEvents] using hcount, rfl⟩
  | cons hd rest ih =>
    intro count b hcount
    match hd with
    | none =>
      rcases ih count b hcount with ⟨hlt, heq⟩ | ⟨p, x, q, hpolls, heq, hge, hlt⟩
      · left
        exact ⟨by simpa [allTraceEvents] using hlt, by simpa [runTraceLoop, allTraceEvents] using heq⟩
      · right
        refine ⟨none :: p, x, q, by simp [hpolls], ?_, ?_, ?_⟩
        · simpa [runTraceLoop, allTraceEvents] using heq
        · simpa [allTraceEvents] using hge
        · simpa [allTraceEvents] using hlt
    | some conns =>
      by_cases hstop : budget ≤ count + ((pollDiff b (buildConnMap conns)).length : Int)
      · right
        refine ⟨[], conns, rest, rfl, ?_, ?_, ?_⟩
        · simp only [runTraceLoop, allTraceEvents, List.nil_append]
          rw [if_pos ⟨hb, by exact_mod_cast hstop⟩]
          simp [allTraceEvents]
        · simpa [allTraceEvents] using hstop
        · simpa [allTraceEvents] using hcount
      · have hc2 : count + ((pollDiff b (buildConnMap conns)).length : Int) < budget := by
          omega
        rcases ih (count + ((pollDiff b (buildConnMap conns)).length : Int))
            (buildConnMap conns) hc2 with ⟨hlt, heq⟩ | ⟨p, x, q, hpolls, heq, hge, hlt⟩
        · left
          constructor
          · simp only [allTraceEvents, List.length_append]
            push_cast
            omega
          · simp only [runTraceLoop, allTraceEvents]
            rw [if_neg (by omega)]
            rw [heq]
        · right
          refine ⟨some conns :: p, x, q, by simp [hpolls], ?_, ?_, ?_⟩
          · simp only [runTraceLoop, allTraceEvents, List.cons_append]
            rw [if_neg (by omega)]
            rw [heq]
            simp [allTraceEvents]
          · simp only [List.cons_append, allTraceEvents, List.length_append, List.append_eq]
            push_cast
            omega
          · simp only [allTraceEvents, List.length_append]
            push_cast
            omega

/-- Claim C7: with a positive event budget the polling loop runs exactly up
to and including the first poll at which the cumulative number of emitted
events reaches the budget — every event of that poll is still emitted, and
nothing after it — and with budget `0` the budget never terminates the
loop. -/
theorem trace_event_budget (budget : Int) (b : List (GoStr × Connection))
    (polls : List (Option (List Connection))) :
    (budget = 0 → runTraceLoop budget 0 b polls = allTraceEvents b polls) ∧
    (0 < budget →
      (((allTraceEvents b polls).length : Int) < budget ∧
          runTraceLoop budget 0 b polls = allTraceEvents b polls) ∨
        (∃ p x q, polls = p ++ some x :: q ∧
          runTraceLoop budget 0 b polls = allTraceEvents b (p ++ [some x]) ∧
          budget ≤ ((allTraceEvents b (p ++ [some x])).length : Int) ∧
          ((allTraceEvents b p).length : Int) < budget)) := by
  constructor
  · intro h
    exact runTraceLoop_nonpos_budget (by omega) polls 0 b
  · intro hb
    have := runTraceLoop_budget_reached hb polls 0 b hb
    simpa using this

/-- Witness for claim C7's theorem: budget 1 with a single one-connection
poll from an empty baseline. -/
theorem trace_event_budget_witness :
    (((allTraceEvents (buildConnMap []) [some [traceW]]).length : Int) < 1 ∧
        runTraceLoop 1 0 (buildConnMap []) [some [traceW]] =
          allTraceEvents (buildConnMap []) [some [traceW]]) ∨
      (∃ p x q, [some [traceW]] = p ++ some x :: q ∧
        runTraceLoop 1 0 (buildConnMap []) [some [traceW]] =
          allTraceEvents (buildConnMap []) (p ++ [some x]) ∧
        (1 : Int) ≤ ((allTraceEvents (buildConnMap []) (p ++ [some x])).length : Int) ∧
        ((allTraceEvents (buildConnMap []) p).length : Int) < 1) :=
  (trace_event_budget 1 (buildConnMap []) [some [traceW]]).2 (by decide)

/-! Session-state lemmas. -/

theorem visible_set_cursor (m : TuiModel) (x : Int) :
    visibleConnections { m with cursor := x } = visibleConnections m := rfl

theorem cursorInBounds_clampCursor (m : TuiModel) : cursorInBounds (clampCursor m) := by
  unfold clampCursor cursorInBounds
  simp only [visible_set_cursor]
  split_ifs <;> [skip; skip; skip; skip] <;>
    first
      | (left; constructor <;> omega)
      | (right; constructor <;> omega)
      | (by_cases h0 : (visibleConnections m).length = 0
         · right; constructor <;> omega
         · left; constructor <;> omega)

/-- Claim C2, counterexample: while search is active, appending a character
to the query narrows the visible list but does not re-clamp the cursor, so
the cursor can be left outside `[0, len(visible)-1]` (here: cursor 1 with a
single visible connection). -/
theorem search_append_leaves_cursor_unclamped :
    cursorInBounds searchCexModel ∧
      ¬ cursorInBounds (handleSearchKey searchCexModel (SearchKey.char 'a')) := by
  constructor
  · decide
  · decide

/-- Claim C2, amended: toggling any protocol/state visibility flag re-clamps
the cursor into `[0, len(visible)-1]` (or to 0 when the visible list is
empty), but changing the search query does not re-clamp: appending a
character or deleting the last character leaves the cursor untouched, and
only confirming the search with enter resets it to 0. -/
theorem toggle_clamps_cursor_search_input_does_not :
    (∀ (m : TuiModel) (k : ToggleKey), cursorInBounds (handleToggleKey m k)) ∧
      (∀ (m : TuiModel) (ch : Char),
        (handleSearchKey m (SearchKey.char ch)).cursor = m.cursor ∧
          (handleSearchKey m SearchKey.backspace).cursor = m.cursor) ∧
      (∀ m : TuiModel, (handleSearchKey m SearchKey.enter).cursor = 0) := by
  refine ⟨?_, ?_, ?_⟩
  · intro m k
    cases k <;> exact cursorInBounds_clampCursor _
  · intro m ch
    constructor
    · rfl
    · unfold handleSearchKey
      split_ifs <;> rfl
  · intro m
    rfl

/-- Claim C10: a pending status-clear timer message erases the status
message only when the current time is strictly after the stored expiry;
otherwise the model — and in particular a status message set later whose
expiry is still in the future — is left untouched. -/
theorem clear_status_only_after_expiry (m : TuiModel) (now : Int) :
    (¬ m.statusExpiry < now → applyClearStatus m now = m) ∧
      (m.statusExpiry < now → (applyClearStatus m now).statusMessage = []) := by
  constructor <;> intro h <;> simp [applyClearStatus, h]

/-- Witness for claim C10's theorem: a timer firing at time 3 does not erase
a status message whose expiry is 5. -/
theorem clear_status_only_after_expiry_witness :
    applyClearStatus statusCexModel 3 = statusCexModel :=
  (clear_status_only_after_expiry statusCexModel 3).1 (by decide)

/-! Truncation lemmas. -/

theorem charCount_ascii {s : List Nat} (h : ∀ b ∈ s, b < 128) :
    charCount s = s.length := by
  unfold charCount
  rw [List.filter_eq_self.mpr]
  intro b hb
  have := h b hb
  simp [isContinuationByte]
  omega

/-- Claim C3, counterexample: `truncate` measures raw bytes, not display
columns or characters — a two-character, two-column string whose UTF-8
encoding is four bytes is truncated at a budget of 3 instead of being
returned unchanged. -/
theorem truncate_counts_bytes_not_columns :
    charCount eeBytes = 2 ∧ truncate eeBytes 3 ≠ eeBytes := by
  constructor
  · decide
  · decide

/-- Claim C3, amended: `truncate` counts raw bytes: a string of at most
`max` bytes is returned unchanged, a longer one is cut to `max - 1` bytes
plus the ellipsis marker (for `max > 2`); in particular for pure-ASCII
strings the spec's examples hold — a 10-character ASCII string at budget 3
becomes a 3-character result ending in the ellipsis, and an ASCII string of
at most 3 characters is returned unchanged at budget 3. -/
theorem truncate_byte_semantics :
    (∀ (s : List Nat) (max : Nat), s.length ≤ max → truncate s max = s) ∧
      (∀ (s : List Nat) (max : Nat), 2 < max → max < s.length →
        truncate s max = s.take (max - 1) ++ ellipsisBytes) ∧
      (∀ s : List Nat, (∀ b ∈ s, b < 128) → s.length = 10 →
        charCount (truncate s 3) = 3 ∧ ellipsisBytes <:+ truncate s 3) ∧
      (∀ s : List Nat, (∀ b ∈ s, b < 128) → charCount s ≤ 3 → truncate s 3 = s) := by
  refine ⟨?_, ?_, ?_, ?_⟩
  · intro s max h
    simp [truncate, h]
  · intro s max h2 hlen
    unfold truncate
    rw [if_neg (by omega), if_neg (by omega)]
  · intro s hascii hlen
    have htr : truncate s 3 = s.take 2 ++ ellipsisBytes := by
      unfold truncate
      rw [if_neg (by omega), if_neg (by omega)]
    constructor
    · rw [htr]
      unfold charCount
      rw [List.filter_append, List.length_append]
      have h1 : charCount (s.take 2) = 2 := by
        rw [charCount_ascii (fun b hb => hascii b (List.mem_of_mem_take hb))]
        rw [List.length_take]
        omega
      unfold charCount at h1
      rw [h1]
      decide
    · rw [htr]
      exact List.suffix_append _ _
  · intro s hascii hcc
    rw [charCount_ascii hascii] at hcc
    simp [truncate, hcc]

/-- Witness for the amended C3 theorem: the ten-byte ASCII string
`"0123456789"` at budget 3. -/
theorem truncate_byte_semantics_witness :
    charCount (truncate [48, 49, 50, 51, 52, 53, 54, 55, 56, 57] 3) = 3 ∧
      ellipsisBytes <:+ truncate [48, 49, 50, 51, 52, 53, 54, 55, 56, 57] 3 :=
  truncate_byte_semantics.2.2.1 [48, 49, 50, 51, 52, 53, 54, 55, 56, 57]
    (by decide) (by decide)

/-! Geolocation enrichment lemmas. -/

theorem getIPInfo_local {svc : GoStr → IPInfo} {ip : GoStr}
    {cache : List (GoStr × IPInfo)} (h : IsLocalOrPrivate ip = true) :
    GetIPInfo svc ip cache = (emptyIPInfo, cache, false) := by
  unfold GetIPInfo
  by_cases h1 : ip = [] ∨ ip = [Char.ofNat 42]
  · rw [if_pos h1]
  · rw [if_neg h1, if_pos h]

/-- Claim C4: every address classified local or private short-circuits
`GetIPInfo` to an empty result with no lookup-service call and no cache
write; the classifier accepts the loopback, private, link-local and
carrier-grade-NAT examples and rejects a public address. -/
theorem geoip_private_short_circuit :
    (∀ (svc : GoStr → IPInfo) (ip : GoStr) (cache : List (GoStr × IPInfo)),
      IsLocalOrPrivate ip = true → GetIPInfo svc ip cache = (emptyIPInfo, cache, false)) ∧
      IsLocalOrPrivate (gs "127.0.0.1") = true ∧
      IsLocalOrPrivate (gs "::1") = true ∧
      IsLocalOrPrivate (gs "10.0.0.5") = true ∧
      IsLocalOrPrivate (gs "192.168.1.1") = true ∧
      IsLocalOrPrivate (gs "169.254.1.1") = true ∧
      IsLocalOrPrivate (gs "100.64.0.1") = true ∧
      IsLocalOrPrivate (gs "8.8.8.8") = false := by
  refine ⟨fun svc ip cache h => getIPInfo_local h, ?_, ?_, ?_, ?_, ?_, ?_, ?_⟩ <;> decide

/-- Witness for claim C4's theorem: the private address `10.0.0.5` with an
empty cache and a counting stand-in service. -/
theorem geoip_private_short_circuit_witness :
    GetIPInfo (fun _ => emptyIPInfo) (gs "10.0.0.5") [] = (emptyIPInfo, [], false) :=
  geoip_private_short_circuit.1 (fun _ => emptyIPInfo) (gs "10.0.0.5") [] (by decide)

/-- Claim C9: a string that does not parse as an IP address is classified
local/private, so it never reaches the lookup service and always yields the
empty enrichment without touching the cache. -/
theorem unparsable_ip_is_local (s : GoStr) (svc : GoStr → IPInfo)
    (cache : List (GoStr × IPInfo)) (h : parseIP s = none) :
    IsLocalOrPrivate s = true ∧ GetIPInfo svc s cache = (emptyIPInfo, cache, false) := by
  have hl : IsLocalOrPrivate s = true := by
    unfold IsLocalOrPrivate
    rw [h]
  exact ⟨hl, getIPInfo_local hl⟩

/-- Witness for claim C9's theorem: the malformed address `"not-an-ip"`. -/
theorem unparsable_ip_is_local_witness :
    IsLocalOrPrivate (gs "not-an-ip") = true ∧
      GetIPInfo (fun _ => emptyIPInfo) (gs "not-an-ip") [] = (emptyIPInfo, [], false) :=
  unparsable_ip_is_local (gs "not-an-ip") (fun _ => emptyIPInfo) [] (by decide)

/-! Sorting lemmas. -/

theorem keyLE_refl (f : SortField) (a : Connection) : keyLE f a a := by
  cases f <;> simp [keyLE]

theorem connLE_refl (o : SortOptions) (a : Connection) : connLE o a a := by
  unfold connLE
  cases o.direction <;> exact keyLE_refl _ _

theorem sameKey_iff {f : SortField} {a b : Connection} :
    sameKey f a b = true ↔ (keyLE f a b ∧ keyLE f b a) := by
  cases f <;> simp only [sameKey, beq_iff_eq, keyLE] <;> exact le_antisymm_iff

theorem keyLE_total (f : SortField) (a b : Connection) : keyLE f a b ∨ keyLE f b a := by
  cases f <;> exact le_total _ _

theorem keyLE_trans {f : SortField} {a b c : Connection} (h1 : keyLE f a b)
    (h2 : keyLE f b c) : keyLE f a c := by
  cases f <;> exact le_trans h1 h2

theorem filter_orderedInsert {p : Connection → Bool} {r : Connection → Connection → Prop}
    [DecidableRel r] (a : Connection) (l : List Connection)
    (hp : ∀ b, p a = true → p b = true → r a b) :
    (l.orderedInsert r a).filter p =
      if p a then a :: l.filter p else l.filter p := by
  induction l with
  | nil =>
    by_cases hpa : p a <;> simp [List.orderedInsert, List.filter_cons, hpa]
  | cons b l ih =>
    by_cases hr : r a b
    · rw [List.orderedInsert, if_pos hr]
      by_cases hpa : p a <;> simp [List.filter_cons, hpa]
    · rw [List.orderedInsert, if_neg hr]
      rw [List.filter_cons, List.filter_cons]
      by_cases hpa : p a
      · have hpb : p b = false := by
          cases hb : p b
          · rfl
          · exact absurd (hp b hpa hb) hr
        simp [hpb, ih, hpa]
      · by_cases hpb : p b <;> simp [hpb, ih, hpa]

theorem filter_insertionSort {p : Connection → Bool} {r : Connection → Connection → Prop}
    [DecidableRel r] (hp : ∀ a b, p a = true → p b = true → r a b) (l : List Connection) :
    (List.insertionSort r l).filter p = l.filter p := by
  induction l with
  | nil => rfl
  | cons a l ih =>
    rw [List.insertionSort, filter_orderedInsert a _ (fun b => hp a b)]
    by_cases hpa : p a <;> simp [List.filter_cons, hpa, ih]

theorem precedes_of_sorted {r : Connection → Connection → Prop}
    (hrefl : ∀ x, r x x) {l : List Connection} (hs : l.Pairwise r)
    {a b : Connection} (ha : a ∈ l) (hb : b ∈ l) (hab : ¬ r b a) :
    precedesIn a b l ∧ ¬ precedesIn b a l := by
  constructor
  · obtain ⟨i, hi⟩ := List.get_of_mem ha
    obtain ⟨j, hj⟩ := List.get_of_mem hb
    have hij : (i : Nat) < (j : Nat) := by
      rcases lt_trichotomy (i : Nat) (j : Nat) with h | h | h
      · exact h
      · exfalso
        have : a = b := by
          rw [← hi, ← hj]
          congr 1
          exact Fin.ext h
        exact hab (this ▸ hrefl a)
      · exfalso
        have := List.pairwise_iff_get.mp hs j i (by exact h)
        rw [hi, hj] at this
        exact hab this
    exact ⟨i, j, hij,
      by rw [List.getElem?_eq_getElem i.isLt]; simp [← hi, List.get_eq_getElem],
      by rw [List.getElem?_eq_getElem j.isLt]; simp [← hj, List.get_eq_getElem]⟩
  · rintro ⟨i, j, hij, hgi, hgj⟩
    obtain ⟨hilt, hieq⟩ := List.getElem?_eq_some.mp hgi
    obtain ⟨hjlt, hjeq⟩ := List.getElem?_eq_some.mp hgj
    have := List.pairwise_iff_get.mp hs ⟨i, hilt⟩ ⟨j, hjlt⟩ hij
    simp only [List.get_eq_getElem, hieq, hjeq] at this
    exact hab this

theorem sorted_SortConnections (l : List Connection) (o : SortOptions) :
    (SortConnections l o).Pairwise (connLE o) :=
  List.sorted_insertionSort (connLE o) l

theorem mem_SortConnections {l : List Connection} {o : SortOptions} {a : Connection} :
    a ∈ SortConnections l o ↔ a ∈ l :=
  (List.perm_insertionSort (connLE o) l).mem_iff

/-- Claim C5 (collector sorting, modelled from the spec): the sort is stable
— for any reference key the sublist of connections sharing that key is
exactly the same, in the same order, before and after sorting — idempotent,
and flipping the direction reverses the relative order of connections with
different keys while (by the stability part, which holds for both
directions) preserving the relative order of equal-key connections. -/
theorem sort_stable_idempotent_direction_reversing :
    (∀ (l : List Connection) (o : SortOptions) (c0 : Connection),
      (SortConnections l o).filter (fun c => sameKey o.field c c0) =
        l.filter (fun c => sameKey o.field c c0)) ∧
      (∀ (l : List Connection) (o : SortOptions),
        SortConnections (SortConnections l o) o = SortConnections l o) ∧
      (∀ (l : List Connection) (f : SortField) (a b : Connection), a ∈ l → b ∈ l →
        sameKey f a b = false →
        (precedesIn a b (SortConnections l ⟨f, SortDirection.asc⟩) ↔
          precedesIn b a (SortConnections l ⟨f, SortDirection.desc⟩))) := by
  refine ⟨?_, ?_, ?_⟩
  · intro l o c0
    refine filter_insertionSort (fun a b hpa hpb => ?_) l
    have ha := sameKey_iff.mp hpa
    have hb := sameKey_iff.mp hpb
    unfold connLE
    cases o.direction
    · exact keyLE_trans ha.1 hb.2
    · exact keyLE_trans hb.1 ha.2
  · intro l o
    exact (List.sorted_insertionSort (connLE o) l).insertionSort_eq
  · intro l f a b ha hb hne
    have hntot : ¬ (keyLE f a b ∧ keyLE f b a) := fun hk =>
      by rw [sameKey_iff.mpr hk] at hne; cases hne
    have hmaA : a ∈ SortConnections l ⟨f, SortDirection.asc⟩ := mem_SortConnections.mpr ha
    have hmaB : b ∈ SortConnections l ⟨f, SortDirection.asc⟩ := mem_SortConnections.mpr hb
    have hmdA : a ∈ SortConnections l ⟨f, SortDirection.desc⟩ := mem_SortConnections.mpr ha
    have hmdB : b ∈ SortConnections l ⟨f, SortDirection.desc⟩ := mem_SortConnections.mpr hb
    have hconnAsc : ∀ x y : Connection,
        connLE ⟨f, SortDirection.asc⟩ x y = keyLE f x y := fun x y => rfl
    have hconnDesc : ∀ x y : Connection,
        connLE ⟨f, SortDirection.desc⟩ x y = keyLE f y x := fun x y => rfl
    rcases keyLE_total f a b with hab | hba
    · have hnba : ¬ keyLE f b a := fun hk => hntot ⟨hab, hk⟩
      have hasc := precedes_of_sorted (connLE_refl _) (sorted_SortConnections l _)
        hmaA hmaB (by rw [hconnAsc]; exact hnba)
      have hdesc := precedes_of_sorted (connLE_refl _) (sorted_SortConnections l _)
        hmdB hmdA (by rw [hconnDesc]; exact hnba)
      exact iff_of_true hasc.1 hdesc.1
    · have hnab : ¬ keyLE f a b := fun hk => hntot ⟨hk, hba⟩
      have hasc := precedes_of_sorted (connLE_refl _) (sorted_SortConnections l _)
        hmaB hmaA (by rw [hconnAsc]; exact hnab)
      have hdesc := precedes_of_sorted (connLE_refl _) (sorted_SortConnections l _)
        hmdA hmdB (by rw [hconnDesc]; exact hnab)
      exact iff_of_false hasc.2 hdesc.2

/-- Witness for claim C5's theorem: two connections with different local
ports, listed in descending port order. -/
theorem sort_direction_reversing_witness :
    precedesIn sortWA sortWB
        (SortConnections [sortWB, sortWA] ⟨SortField.byLport, SortDirection.asc⟩) ↔
      precedesIn sortWB sortWA
        (SortConnections [sortWB, sortWA] ⟨SortField.byLport, SortDirection.desc⟩) :=
  sort_stable_idempotent_direction_reversing.2.2 [sortWB, sortWA] SortField.byLport
    sortWA sortWB (by decide) (by decide) (by decide)

end Snitch
